import Mathlib

/-!
Verification of the FT8 decoder wrapper (src/trx-ft8/src/ft8_wrapper.c).

Shallow embedding conventions:
* C machine integers become `Nat` with explicit `% 2^w` where wrap can occur;
  bit operations on masks that are `2^k - 1` are written arithmetically:
  `x & 0x3FFFFF` becomes `x % 0x400000`, `x >> 24` becomes `x / 0x1000000`,
  `x << 24` becomes `x * 0x1000000`, and `a | b` with disjoint operands
  (low 22 bits vs bits at or above 24) becomes `a + b`.
* The two global open-addressed tables are total functions from `Nat`
  (the C array index; every access in the source is reduced `% capacity`,
  so only indices below the capacity are ever read or written).
* The unbounded C probe loops (`while` in `hashtable_add` / `hashtable_lookup`,
  `do .. while` in `ft8_decoder_decode`) step through the cyclic index sequence
  `start, start+1, ... (mod N)`.  Since the sequence has period `N`, the loop
  terminates iff a stopping slot occurs within `N` consecutive probes; `probe`
  below returns `some index` in that case and `none` when the C loop would
  never terminate.
* External collaborators (`ftx_decode_candidate`, `ftx_message_decode`,
  `monitor_*`) are modelled as oracle inputs: a candidate carries the outcome
  of its decode attempt, and the unpack step is an arbitrary function that may
  transform the callsign-cache state (it receives the `lookup`/`save`
  capability in the C code).
* Float arithmetic (`freq_hz`, `time_sec`, `snr_db = score * 0.5f`) is outside
  the embedding; results carry the integer detection score the snr is derived
  from.  The `strncpy` of the display text into the fixed result field is
  modelled as the identity: its bound `FTX_MAX_MESSAGE_LENGTH` is a constant
  of the external library, larger than the error-text format produced here.
-/

set_option maxRecDepth 20000

/-- One probe of the open-addressed tables: walk the cyclic sequence
`i % N, (i+1) % N, ...` until `stop` holds, with enough fuel for one full
cycle.  `none` models the C loop running forever (no stopping slot exists
anywhere, since the probe sequence has period `N`). -/
def probe (N : Nat) (stop : Nat → Bool) : Nat → Nat → Option Nat
  | 0, _ => none
  | fuel + 1, i => if stop (i % N) then some (i % N) else probe N stop fuel (i + 1)

/-- One slot of the callsign hash table: `uint32_t hash; char callsign[12];`.
An empty `callsign` marks a free slot. -/
structure CEntry where
  hash : Nat
  callsign : String
deriving DecidableEq

/-- The global callsign table (256 slots, indices taken `% 256`) together with
the parallel live counter `callsign_hashtable_size` (a C `int`). -/
structure CacheState where
  table : Nat → CEntry
  size : Int

/-- `hashtable_init`: all slots zeroed, live count zero. -/
def hashtable_init : CacheState := ⟨fun _ => ⟨0, ""⟩, 0⟩

/-- `strncpy(dst, src, 11); dst[11] = 0;` keeps the first 11 characters. -/
def strncpy11 (s : String) : String := ⟨s.data.take 11⟩

/-- Stop condition of the probe loop in `hashtable_add`: an empty slot, or a
slot whose masked stored hash equals the (full, unmasked) argument and whose
callsign text matches. -/
def addStop (t : Nat → CEntry) (cs : String) (h : Nat) (i : Nat) : Bool :=
  decide ((t i).callsign = "" ∨ ((t i).hash % 0x400000 = h ∧ (t i).callsign = cs))

/-- `hashtable_add(callsign, hash)`: probe from `hash % 256`; on a matching
slot clear the age bits (`hash &= 0x3FFFFF`); on an empty slot copy the
truncated callsign, store the hash (age 0) and bump the live count.  `none`
models the C loop never terminating (full table, no match). -/
def hashtable_add (cs : String) (h : Nat) (c : CacheState) : Option CacheState :=
  match probe 256 (addStop c.table cs h) 256 (h % 256) with
  | none => none
  | some p =>
    if (c.table p).callsign = "" then
      some ⟨Function.update c.table p ⟨h, strncpy11 cs⟩, c.size + 1⟩
    else
      some ⟨Function.update c.table p ⟨(c.table p).hash % 0x400000, (c.table p).callsign⟩, c.size⟩

/-- `ftx_callsign_hash_type_t`: the three graduated hash granularities. -/
inductive HashType where
  | h22
  | h12
  | h10
deriving DecidableEq

/-- `hash_shift` in `hashtable_lookup`. -/
def hashShift : HashType → Nat
  | .h22 => 0
  | .h12 => 10
  | .h10 => 12

/-- Successor of `mask` in `hashtable_lookup` (`x & mask = x % (mask+1)`). -/
def hashMaskP1 : HashType → Nat
  | .h22 => 0x400000
  | .h12 => 0x1000
  | .h10 => 0x400

/-- Stop condition of the probe loop in `hashtable_lookup`: an empty slot, or
a slot whose shifted masked stored identity equals the masked argument. -/
def lookupStop (t : Nat → CEntry) (ht : HashType) (h : Nat) (i : Nat) : Bool :=
  decide ((t i).callsign = "" ∨ (t i).hash % 0x400000 / 2 ^ hashShift ht = h % hashMaskP1 ht)

/-- Result of `hashtable_lookup`: the callsign copied out (`true` return), the
not-found case (empty slot hit, `false` return), or divergence of the C loop. -/
inductive LookupResult where
  | found (cs : String)
  | notFound
  | diverge
deriving DecidableEq

/-- `hashtable_lookup(hash_type, hash, out)`: probe from `hash % 256` (the
truncated argument, whatever its granularity). -/
def hashtable_lookup (ht : HashType) (h : Nat) (c : CacheState) : LookupResult :=
  match probe 256 (lookupStop c.table ht h) 256 (h % 256) with
  | none => .diverge
  | some p => if (c.table p).callsign = "" then .notFound else .found (c.table p).callsign

/-- One slot of `hashtable_cleanup(max_age)`: skip free slots; clear a slot
whose age (`(uint8_t)(hash >> 24)`) reached `max_age`; otherwise bump the age
keeping the low 22 identity bits (`((age+1) << 24) | (hash & 0x3FFFFF)`,
the two operands being disjoint, reduced into the `uint32_t` range). -/
def cleanupEntry (m : Nat) (e : CEntry) : CEntry :=
  if e.callsign = "" then e
  else if e.hash / 0x1000000 % 0x100 ≥ m then ⟨0, ""⟩
  else ⟨((e.hash / 0x1000000 % 0x100 + 1) * 0x1000000 + e.hash % 0x400000) % 0x100000000,
        e.callsign⟩

/-- The slots `hashtable_cleanup(max_age)` evicts (occupied, age at least
`max_age`); the live count drops by one for each. -/
def evictSet (m : Nat) (c : CacheState) : Finset Nat :=
  (Finset.range 256).filter
    (fun i => (c.table i).callsign ≠ "" ∧ (c.table i).hash / 0x1000000 % 0x100 ≥ m)

/-- `hashtable_cleanup(max_age)`: age or evict every slot, decrementing the
live count once per evicted slot. -/
def hashtable_cleanup (m : Nat) (c : CacheState) : CacheState :=
  ⟨fun i => cleanupEntry m (c.table i), c.size - (evictSet m c).card⟩

/-- One ftx message: the identity hash (`message.hash`) and the payload bytes
(`message.payload`); two messages are equal iff both fields agree, exactly the
test `hash == hash && memcmp(payload, payload) == 0` in the source. -/
structure Msg where
  hash : Nat
  payload : List Nat
deriving DecidableEq

/-- The per-cycle dedup table `decoded_hashtable` (200 slots, `NULL` = free);
a stored pointer stands for the copied message in `decoded`. -/
def DedupTable := Nat → Option Msg

/-- All 200 slots start out `NULL` at the beginning of every decode cycle. -/
def emptyDedup : DedupTable := fun _ => none

/-- Stop condition of the dedup `do..while`: an empty slot
(`found_empty_slot`) or a slot holding the same hash and payload
(`found_duplicate`). -/
def dedupStop (t : DedupTable) (m : Msg) (i : Nat) : Bool :=
  decide ((t i) = none ∨ (t i) = some m)

/-- The dedup probe of `ft8_decoder_decode`: probe from `hash % 200`; report
`some true` for a duplicate (candidate dropped), `some false` for a reserved
slot now holding the message, `none` when the C `do..while` never terminates
(full table, no duplicate). -/
def lookupOrReserve (t : DedupTable) (m : Msg) : Option Bool × DedupTable :=
  match probe 200 (dedupStop t m) 200 (m.hash % 200) with
  | none => (none, t)
  | some p =>
    if (t p).isSome then (some true, t)
    else (some false, Function.update t p (some m))

/-- One candidate from `ftx_find_candidates`, bundled with the outcome of the
external `ftx_decode_candidate` call on it (`none` = decode failed, candidate
skipped).  `score` is the integer detection score; the float fields
(`time_offset`, `freq_offset`, sub-bin offsets) only feed the pure float
arithmetic for `dt_s`/`freq_hz` and are outside this embedding. -/
structure Candidate where
  decodeResult : Option Msg
  score : Int

/-- One `ft8_decode_result_t` as far as the claims observe it: the display
text and the detection score its `snr_db = score * 0.5f` is derived from
(float arithmetic itself is outside the embedding). -/
structure DecodeResult where
  text : String
  score : Int

/-- The external `ftx_message_decode` (unpack) collaborator: from a message
and the current callsign-cache state (reached through the `lookup`/`save`
capability interface) it produces a return code (`0` = `FTX_MESSAGE_RC_OK`),
the rendered text, and the updated cache state. -/
def Unpacker := Msg → CacheState → Nat × String × CacheState

/-- The text substituted on unpack failure:
`snprintf(text, sizeof(text), "Error [%d] while unpacking!", (int)unpack_status)`. -/
def errorText (rc : Nat) : String := "Error [" ++ toString rc ++ "] while unpacking!"

/-- The candidate loop of `ft8_decoder_decode`: for each candidate while
`num_decoded < max_results`, attempt decode, consult the dedup table, unpack
(substituting the error text on failure) and append a result.  Returns the
accumulated results, the final cache state and a divergence flag (`true` when
the dedup probe would loop forever, in which case the C function never
returns). -/
def decodeLoop (u : Unpacker) (maxR : Int) :
    List Candidate → DedupTable → CacheState → List DecodeResult →
    List DecodeResult × CacheState × Bool
  | [], _, cache, acc => (acc, cache, false)
  | c :: rest, t, cache, acc =>
    if (acc.length : Int) < maxR then
      match c.decodeResult with
      | none => decodeLoop u maxR rest t cache acc
      | some m =>
        match lookupOrReserve t m with
        | (none, _) => (acc, cache, true)
        | (some true, _) => decodeLoop u maxR rest t cache acc
        | (some false, t2) =>
          let r := u m cache
          decodeLoop u maxR rest t2 r.2.2
            (acc ++ [⟨if r.1 ≠ 0 then errorText r.1 else r.2.1, c.score⟩])
    else (acc, cache, false)

/-- What `ft8_decoder_decode` produces: the returned count, the results
written to the buffer of the caller, the callsign-cache state afterwards, and
whether the dedup probe diverged (C call never returns). -/
structure DecodeOutcome where
  count : Nat
  results : List DecodeResult
  cache : CacheState
  diverged : Bool

/-- `ft8_decoder_decode(dec, out, max_results)`.  `sessValid` / `outValid`
model the `dec` and `out` pointers being non-null.  The candidate list stands
for what `ftx_find_candidates` returned (at most 200 entries by its
contract).  After the loop, `hashtable_cleanup(10)` runs unconditionally --
unless the loop diverged, in which case control never reaches it. -/
def ft8_decoder_decode (sessValid outValid : Bool) (maxR : Int) (u : Unpacker)
    (cands : List Candidate) (cache : CacheState) : DecodeOutcome :=
  if sessValid = false ∨ outValid = false ∨ maxR ≤ 0 then ⟨0, [], cache, false⟩
  else
    match decodeLoop u maxR cands emptyDedup cache [] with
    | (res, cache2, dv) =>
      ⟨res.length, res, if dv then cache2 else hashtable_cleanup 10 cache2, dv⟩

/-- The dedup-free reference run used to state claim C4: process every
candidate in order with no result cap and no dedup table, threading the cache
through the unpack calls. -/
def plainRun (u : Unpacker) : List Candidate → CacheState → List DecodeResult × CacheState
  | [], cache => ([], cache)
  | c :: rest, cache =>
    match c.decodeResult with
    | none => plainRun u rest cache
    | some m =>
      let r := u m cache
      let rec2 := plainRun u rest r.2.2
      (⟨if r.1 ≠ 0 then errorText r.1 else r.2.1, c.score⟩ :: rec2.1, rec2.2)

/-- The view the session has of the external accumulation buffer (`monitor_t`), as
far as the wrapper observes it: the accumulated block count and the readiness
threshold. -/
structure Session where
  numBlocks : Nat
  maxBlocks : Nat

/-- Modelled from the spec: `monitor_reset` (external collaborator, not under
src/) clears the accumulation buffer so a fresh listening window starts. -/
def monitor_reset (s : Session) : Session := ⟨0, s.maxBlocks⟩

/-- `ft8_decoder_reset(dec)`: calls `monitor_reset(&dec->mon)` and nothing
else; the global callsign cache is passed through untouched. -/
def ft8_decoder_reset (s : Session) (cache : CacheState) : Session × CacheState :=
  (monitor_reset s, cache)

/-- `ft8_decoder_create(...)`: builds the configuration, runs
`hashtable_init()` on the one process-wide callsign table (discarding
whatever any existing session had stored in it, hence the `cache` argument is
ignored) and initialises the monitor (modelled from the spec: fresh empty
accumulation buffer with the configured threshold). -/
def ft8_decoder_create (maxBlocks : Nat) (_cache : CacheState) : Session × CacheState :=
  (⟨0, maxBlocks⟩, hashtable_init)

/-- One operation on the global callsign table, for stating reachability and
the table invariant. -/
inductive CacheOp where
  | save (cs : String) (h : Nat)
  | ageEvict (m : Nat)
  | reinit
deriving DecidableEq

/-- Apply one operation; `none` when `hashtable_add` diverges (the C call
never returns, so no later state exists). -/
def applyCacheOp : CacheOp → CacheState → Option CacheState
  | .save cs h, c => hashtable_add cs h c
  | .ageEvict m, c => some (hashtable_cleanup m c)
  | .reinit, _ => some hashtable_init

/-- Run a sequence of callsign-table operations. -/
def runOps : List CacheOp → CacheState → Option CacheState
  | [], c => some c
  | op :: rest, c => (applyCacheOp op c).bind (runOps rest)

/-- The live-count invariant of claim C9 (amended): the counter equals the
number of occupied slots. -/
def sizeInv (c : CacheState) : Prop :=
  c.size = ((Finset.range 256).filter (fun i => (c.table i).callsign ≠ "")).card

/-- State after saving one callsign into the fresh table, used to refute the
medium-granularity half of claim C1 and both timing halves of claim C2. -/
def c1state : CacheState := (hashtable_add "K1ABC" 1024 hashtable_init).getD hashtable_init

/-- Number of occupied dedup slots. -/
def dedupOcc (t : DedupTable) : Nat :=
  ((Finset.range 200).filter (fun i => (t i).isSome)).card

/-- Operation sequence refuting the one-slot-per-pair invariant: B is stored
behind A in the probe chain of A, then A is evicted, and re-saving B lands in
the hole before the slot already holding B. -/
def c9ops : List CacheOp :=
  [CacheOp.save "A" 0, CacheOp.save "B" 0, CacheOp.ageEvict 1,
   CacheOp.save "B" 0, CacheOp.ageEvict 1, CacheOp.save "B" 0]

/-- The state reached by `c9ops`. -/
def c9state : CacheState := (runOps c9ops hashtable_init).getD hashtable_init

/-- Concrete operation sequence for the C9 witness. -/
def c9wops : List CacheOp := [CacheOp.save "W1AW" 3, CacheOp.ageEvict 1]

/-- Oracle and candidates for the concrete witnesses: unpack always succeeds
with a constant text. -/
def u0 : Unpacker := fun _ cache => (0, "CQ TEST", cache)

/-- Three candidates that all decode to pairwise-distinct messages. -/
def cands4 : List Candidate := [⟨some ⟨1, [1]⟩, 2⟩, ⟨some ⟨2, [2]⟩, 4⟩, ⟨some ⟨3, [3]⟩, 6⟩]

/-- A completely occupied dedup table (every slot non-NULL). -/
def fullDedup : DedupTable := fun i => some ⟨i % 200, []⟩

/-- The 256 saves that fill every slot of the callsign table: callsign "X"
with hashes 0..255, each landing in its own slot. -/
def fillOps : List CacheOp := (List.range 256).map (fun i => CacheOp.save "X" i)

/-- The completely full callsign table reached by `fillOps`. -/
def fullCache : CacheState := (runOps fillOps hashtable_init).getD hashtable_init

/-! Helper lemmas about the probe loop. -/

theorem probe_eq_first {N : Nat} (stop : Nat → Bool) :
    ∀ (k fuel i : Nat), k < fuel →
      (∀ j, j < k → stop ((i + j) % N) = false) →
      stop ((i + k) % N) = true →
      probe N stop fuel i = some ((i + k) % N) := by
  intro k
  induction k with
  | zero =>
    intro fuel i hf hpre hstop
    obtain ⟨f, rfl⟩ : ∃ f, fuel = f + 1 := ⟨fuel - 1, by omega⟩
    rw [Nat.add_zero] at hstop
    simp [probe, hstop]
  | succ k ih =>
    intro fuel i hf hpre hstop
    obtain ⟨f, rfl⟩ : ∃ f, fuel = f + 1 := ⟨fuel - 1, by omega⟩
    have h0 : stop (i % N) = false := by
      have := hpre 0 (Nat.succ_pos k)
      rwa [Nat.add_zero] at this
    have hstep : probe N stop (f + 1) i = probe N stop f (i + 1) := by
      simp [probe, h0]
    rw [hstep]
    have goalpos : (i + 1 + k) % N = (i + (k + 1)) % N := by
      have : i + 1 + k = i + (k + 1) := by omega
      rw [this]
    rw [← goalpos] at hstop ⊢
    exact ih f (i + 1) (by omega)
      (fun j hj => by
        have := hpre (j + 1) (by omega)
        have e : i + 1 + j = i + (j + 1) := by omega
        rwa [← e] at this)
      hstop

theorem probe_some_spec {N : Nat} (stop : Nat → Bool) (hN : 0 < N) :
    ∀ (fuel i p : Nat), probe N stop fuel i = some p → p < N ∧ stop p = true := by
  intro fuel
  induction fuel with
  | zero => intro i p h; simp [probe] at h
  | succ f ih =>
    intro i p h
    by_cases hs : stop (i % N) = true
    · simp [probe, hs] at h
      exact ⟨h ▸ Nat.mod_lt _ hN, h ▸ hs⟩
    · rw [Bool.not_eq_true] at hs
      simp [probe, hs] at h
      exact ih (i + 1) p h

theorem probe_isSome_of_stop {N : Nat} (stop : Nat → Bool) :
    ∀ (fuel i j : Nat), j < fuel → stop ((i + j) % N) = true →
      ∃ p, probe N stop fuel i = some p := by
  intro fuel
  induction fuel with
  | zero => intro i j hj _; omega
  | succ f ih =>
    intro i j hj hstop
    by_cases hs : stop (i % N) = true
    · exact ⟨i % N, by simp [probe, hs]⟩
    · rw [Bool.not_eq_true] at hs
      have hj0 : j ≠ 0 := by
        intro h0
        rw [h0, Nat.add_zero] at hstop
        rw [hstop] at hs
        exact Bool.true_eq_false.mp hs
      have hstop2 : stop ((i + 1 + (j - 1)) % N) = true := by
        have e : i + 1 + (j - 1) = i + j := by omega
        rwa [e]
      obtain ⟨p, hp⟩ := ih (i + 1) (j - 1) (by omega) hstop2
      exact ⟨p, by simp [probe, hs, hp]⟩

/-! Helper lemmas about the dedup table and the candidate loop. -/


theorem exists_none_of_occ_lt (t : DedupTable) (h : dedupOcc t < 200) :
    ∃ j, j < 200 ∧ t j = none := by
  by_contra hc
  push_neg at hc
  have hall : ∀ i ∈ Finset.range 200, (t i).isSome = true := by
    intro i hi
    rw [Finset.mem_range] at hi
    exact Option.isSome_iff_ne_none.mpr (hc i hi)
  have hcard : dedupOcc t = 200 := by
    unfold dedupOcc
    rw [Finset.filter_true_of_mem hall, Finset.card_range]
  omega

theorem dedupOcc_update_le (t : DedupTable) (p : Nat) (m : Msg) :
    dedupOcc (Function.update t p (some m)) ≤ dedupOcc t + 1 := by
  unfold dedupOcc
  have hsub : (Finset.range 200).filter (fun i => ((Function.update t p (some m)) i).isSome)
      ⊆ insert p ((Finset.range 200).filter (fun i => (t i).isSome)) := by
    intro i hi
    rw [Finset.mem_filter] at hi
    by_cases hip : i = p
    · subst hip; exact Finset.mem_insert_self i _
    · rw [Function.update_noteq hip] at hi
      exact Finset.mem_insert_of_mem (Finset.mem_filter.mpr hi)
  calc ((Finset.range 200).filter (fun i => ((Function.update t p (some m)) i).isSome)).card
      ≤ (insert p ((Finset.range 200).filter (fun i => (t i).isSome))).card :=
        Finset.card_le_card hsub
    _ ≤ ((Finset.range 200).filter (fun i => (t i).isSome)).card + 1 :=
        Finset.card_insert_le _ _

theorem reach_mod200 (s j : Nat) (hs : s < 200) (hj : j < 200) :
    ∃ k, k < 200 ∧ (s + k) % 200 = j := by
  rcases Nat.lt_or_ge j s with h | h
  · exact ⟨j + 200 - s, by omega, by omega⟩
  · exact ⟨j - s, by omega, by omega⟩

theorem lor_isSome (t : DedupTable) (m : Msg) (hocc : dedupOcc t < 200) :
    ∃ b t2, lookupOrReserve t m = (some b, t2) := by
  obtain ⟨j, hj, hjnone⟩ := exists_none_of_occ_lt t hocc
  obtain ⟨k, hk200, hkj⟩ := reach_mod200 (m.hash % 200) j (by omega) hj
  have hstop : dedupStop t m ((m.hash % 200 + k) % 200) = true := by
    rw [hkj]; simp [dedupStop, hjnone]
  obtain ⟨p, hp⟩ := probe_isSome_of_stop (dedupStop t m) 200 (m.hash % 200) k hk200 hstop
  unfold lookupOrReserve
  rw [hp]
  by_cases h2 : (t p).isSome = true
  · exact ⟨true, t, by simp [h2]⟩
  · exact ⟨false, Function.update t p (some m), by simp [h2]⟩

theorem lor_new (t : DedupTable) (m : Msg) (hocc : dedupOcc t < 200)
    (hfree : ∀ i, i < 200 → t i ≠ some m) :
    ∃ p, p < 200 ∧ t p = none ∧
      lookupOrReserve t m = (some false, Function.update t p (some m)) := by
  obtain ⟨j, hj, hjnone⟩ := exists_none_of_occ_lt t hocc
  obtain ⟨k, hk200, hkj⟩ := reach_mod200 (m.hash % 200) j (by omega) hj
  have hstop : dedupStop t m ((m.hash % 200 + k) % 200) = true := by
    rw [hkj]; simp [dedupStop, hjnone]
  obtain ⟨p, hp⟩ := probe_isSome_of_stop (dedupStop t m) 200 (m.hash % 200) k hk200 hstop
  obtain ⟨hp200, hpstop⟩ := probe_some_spec (dedupStop t m) (by omega) 200 (m.hash % 200) p hp
  have hpnone : t p = none := by
    simp only [dedupStop, decide_eq_true_eq] at hpstop
    rcases hpstop with h | h
    · exact h
    · exact absurd h (hfree p hp200)
  refine ⟨p, hp200, hpnone, ?_⟩
  unfold lookupOrReserve
  rw [hp]
  simp [hpnone]

theorem lor_dup (t : DedupTable) (m : Msg) (t2 : DedupTable) :
    lookupOrReserve t m = (some true, t2) →
      (∃ p, p < 200 ∧ t p = some m) ∧ t2 = t := by
  intro h
  unfold lookupOrReserve at h
  split at h
  · simp at h
  · rename_i p hp
    obtain ⟨hp200, hpstop⟩ := probe_some_spec (dedupStop t m) (by omega) 200 (m.hash % 200) p hp
    split at h
    · rename_i h2
      have ht2 : t2 = t := ((Prod.mk.injEq _ _ _ _).mp h).2.symm
      refine ⟨⟨p, hp200, ?_⟩, ht2⟩
      simp only [dedupStop, decide_eq_true_eq] at hpstop
      rcases hpstop with hn | hs
      · rw [hn] at h2; simp at h2
      · exact hs
    · simp at h

theorem lor_false_shape (t : DedupTable) (m : Msg) (t2 : DedupTable) :
    lookupOrReserve t m = (some false, t2) →
      ∃ p, t2 = Function.update t p (some m) := by
  intro h
  unfold lookupOrReserve at h
  split at h
  · simp at h
  · rename_i p hp
    split at h
    · simp at h
    · exact ⟨p, ((Prod.mk.injEq _ _ _ _).mp h).2.symm⟩

theorem decodeLoop_no_div (u : Unpacker) (maxR : Int) :
    ∀ (cands : List Candidate) (t : DedupTable) (cache : CacheState) (acc : List DecodeResult),
      dedupOcc t + cands.length ≤ 200 →
      (decodeLoop u maxR cands t cache acc).2.2 = false := by
  intro cands
  induction cands with
  | nil => intro t cache acc _; rfl
  | cons c rest ih =>
    intro t cache acc hocc
    rw [List.length_cons] at hocc
    simp only [decodeLoop]
    by_cases hb : (acc.length : Int) < maxR
    · rw [if_pos hb]
      cases hc : c.decodeResult with
      | none => exact ih t cache acc (by omega)
      | some m =>
        have hocc2 : dedupOcc t < 200 := by omega
        obtain ⟨b, t2, hlor⟩ := lor_isSome t m hocc2
        simp only []
        rw [hlor]
        cases b with
        | true => exact ih t cache acc (by omega)
        | false =>
          obtain ⟨p, hsh⟩ := lor_false_shape t m t2 hlor
          have hocc3 : dedupOcc t2 + rest.length ≤ 200 := by
            have := dedupOcc_update_le t p m
            rw [hsh]; omega
          exact ih t2 (u m cache).2.2 _ hocc3
    · rw [if_neg hb]

theorem decodeLoop_len_le (u : Unpacker) (maxR : Int) :
    ∀ (cands : List Candidate) (t : DedupTable) (cache : CacheState) (acc : List DecodeResult),
      acc.length ≤ maxR.toNat →
      (decodeLoop u maxR cands t cache acc).1.length ≤ maxR.toNat := by
  intro cands
  induction cands with
  | nil => intro t cache acc h; exact h
  | cons c rest ih =>
    intro t cache acc hacc
    simp only [decodeLoop]
    by_cases hb : (acc.length : Int) < maxR
    · rw [if_pos hb]
      cases hc : c.decodeResult with
      | none => exact ih t cache acc hacc
      | some m =>
        rcases hlor : lookupOrReserve t m with ⟨ob, t2⟩
        simp only []
        rw [hlor]
        match ob with
        | none => exact hacc
        | some true => exact ih t cache acc hacc
        | some false =>
          have hlen : (acc ++
              [(⟨if (u m cache).1 ≠ 0 then errorText (u m cache).1 else (u m cache).2.1,
                c.score⟩ : DecodeResult)]).length ≤ maxR.toNat := by
            rw [List.length_append]
            simp only [List.length_singleton]
            omega
          exact ih t2 (u m cache).2.2 _ hlen
    · rw [if_neg hb]; exact hacc

theorem plainRun_fst_length (u : Unpacker) :
    ∀ (l : List Candidate) (cache : CacheState),
      (∀ c ∈ l, c.decodeResult.isSome = true) →
      (plainRun u l cache).1.length = l.length := by
  intro l
  induction l with
  | nil => intro cache _; rfl
  | cons c rest ih =>
    intro cache hall
    obtain ⟨m, hm⟩ := Option.isSome_iff_exists.mp (hall c (List.mem_cons_self c rest))
    simp only [plainRun, hm, List.length_cons]
    rw [ih (u m cache).2.2 (fun c2 hc2 => hall c2 (List.mem_cons_of_mem c hc2))]

theorem decodeLoop_unique_eq (u : Unpacker) (maxR : Int) :
    ∀ (cands : List Candidate) (t : DedupTable) (cache : CacheState) (acc : List DecodeResult),
      dedupOcc t + cands.length ≤ 200 →
      (∀ c ∈ cands, c.decodeResult.isSome = true) →
      (cands.filterMap Candidate.decodeResult).Nodup →
      (∀ m, (some m) ∈ cands.map Candidate.decodeResult → ∀ i, i < 200 → t i ≠ some m) →
      decodeLoop u maxR cands t cache acc =
        (acc ++ (plainRun u (cands.take (maxR.toNat - acc.length)) cache).1,
         (plainRun u (cands.take (maxR.toNat - acc.length)) cache).2, false) := by
  intro cands
  induction cands with
  | nil =>
    intro t cache acc _ _ _ _
    simp [decodeLoop, plainRun]
  | cons c rest ih =>
    intro t cache acc hocc hall hnd hfresh
    rw [List.length_cons] at hocc
    simp only [decodeLoop]
    by_cases hb : (acc.length : Int) < maxR
    · rw [if_pos hb]
      have hcs : c.decodeResult.isSome = true := hall c (List.mem_cons_self c rest)
      obtain ⟨m, hm⟩ := Option.isSome_iff_exists.mp hcs
      rw [hm]
      have hocc2 : dedupOcc t < 200 := by omega
      have hmmem : (some m) ∈ (c :: rest).map Candidate.decodeResult := by
        rw [List.map_cons, hm]
        exact List.mem_cons_self _ _
      have hfree : ∀ i, i < 200 → t i ≠ some m := hfresh m hmmem
      obtain ⟨p, hp200, hpnone, hlor⟩ := lor_new t m hocc2 hfree
      simp only []
      rw [hlor]
      have hfm : (c :: rest).filterMap Candidate.decodeResult
          = m :: rest.filterMap Candidate.decodeResult := by
        rw [List.filterMap_cons, hm]
      rw [hfm] at hnd
      obtain ⟨hmnot, hndrest⟩ := List.nodup_cons.mp hnd
      obtain ⟨k, hkeq⟩ : ∃ k, maxR.toNat - acc.length = k + 1 :=
        ⟨maxR.toNat - acc.length - 1, by omega⟩
      rw [hkeq, List.take_succ_cons]
      simp only [plainRun, hm]
      have ihres := ih (Function.update t p (some m)) (u m cache).2.2
        (acc ++ [⟨if (u m cache).1 ≠ 0 then errorText (u m cache).1 else (u m cache).2.1,
          c.score⟩])
        (by have := dedupOcc_update_le t p m; omega)
        (fun c2 hc2 => hall c2 (List.mem_cons_of_mem c hc2))
        hndrest
        (by
          intro m2 hm2 i hi
          by_cases hip : i = p
          · subst hip
            rw [Function.update_same]
            intro hcontra
            have hmm : m = m2 := Option.some.inj hcontra
            obtain ⟨c2, hc2mem, hc2eq⟩ := List.mem_map.mp hm2
            exact hmnot (List.mem_filterMap.mpr ⟨c2, hc2mem, by rw [hc2eq, hmm]⟩)
          · rw [Function.update_noteq hip]
            exact hfresh m2 (List.mem_cons_of_mem _ hm2) i hi)
      have harg : maxR.toNat - (acc ++
          [(⟨if (u m cache).1 ≠ 0 then errorText (u m cache).1 else (u m cache).2.1,
            c.score⟩ : DecodeResult)]).length = k := by
        rw [List.length_append]
        simp only [List.length_singleton]
        omega
      rw [harg] at ihres
      show decodeLoop u maxR rest (Function.update t p (some m)) (u m cache).2.2
          (acc ++ [⟨if (u m cache).1 ≠ 0 then errorText (u m cache).1 else (u m cache).2.1,
            c.score⟩]) = _
      rw [ihres]
      simp [List.append_assoc]
    · rw [if_neg hb]
      have h0 : maxR.toNat - acc.length = 0 := by omega
      rw [h0]
      simp [plainRun]

/-! Helper lemmas about the callsign table. -/

theorem strncpy11_eq_self (s : String) (h : s.length ≤ 11) : strncpy11 s = s := by
  cases s with
  | mk l =>
    show String.mk (l.take 11) = String.mk l
    have hl : l.take 11 = l := List.take_of_length_le (by simpa [String.length] using h)
    rw [hl]

theorem strncpy11_ne_empty (s : String) (h : s ≠ "") : strncpy11 s ≠ "" := by
  cases s with
  | mk l =>
    cases l with
    | nil => exact absurd rfl h
    | cons a l2 =>
      intro hc
      have hdata : (a :: l2).take 11 = [] := congrArg String.data hc
      simp [List.take] at hdata

theorem cleanup_slot_evict (m : Nat) (c : CacheState) (i : Nat)
    (hocc : (c.table i).callsign ≠ "")
    (hage : (c.table i).hash / 0x1000000 % 0x100 ≥ m) :
    (hashtable_cleanup m c).table i = ⟨0, ""⟩ := by
  show cleanupEntry m (c.table i) = _
  unfold cleanupEntry
  rw [if_neg hocc, if_pos hage]

theorem cleanup_slot_age (m : Nat) (c : CacheState) (i : Nat)
    (hocc : (c.table i).callsign ≠ "")
    (hage : (c.table i).hash / 0x1000000 % 0x100 < m) (hm : m ≤ 255) :
    ((hashtable_cleanup m c).table i).callsign = (c.table i).callsign ∧
    ((hashtable_cleanup m c).table i).hash / 0x1000000 % 0x100
      = (c.table i).hash / 0x1000000 % 0x100 + 1 ∧
    ((hashtable_cleanup m c).table i).hash % 0x400000 = (c.table i).hash % 0x400000 := by
  have hshow : (hashtable_cleanup m c).table i = cleanupEntry m (c.table i) := rfl
  rw [hshow]
  unfold cleanupEntry
  rw [if_neg hocc, if_neg (by omega)]
  refine ⟨rfl, ?_, ?_⟩ <;> (simp only []; omega)

theorem cleanup_iter_slot (mx : Nat) (hm : mx ≤ 255) :
    ∀ (k : Nat) (c : CacheState) (i a : Nat),
      a + k ≤ mx →
      (c.table i).callsign ≠ "" →
      (c.table i).hash / 0x1000000 % 0x100 = a →
      (((hashtable_cleanup mx)^[k] c).table i).callsign = (c.table i).callsign ∧
      (((hashtable_cleanup mx)^[k] c).table i).hash / 0x1000000 % 0x100 = a + k := by
  intro k
  induction k with
  | zero =>
    intro c i a h1 h2 h3
    rw [Function.iterate_zero_apply]
    exact ⟨rfl, by omega⟩
  | succ k ihk =>
    intro c i a hak hocc hage
    rw [Function.iterate_succ_apply]
    obtain ⟨hcs, hag, hlow⟩ := cleanup_slot_age mx c i hocc (by omega) hm
    have hrec := ihk (hashtable_cleanup mx c) i (a + 1) (by omega)
      (by rw [hcs]; exact hocc) (by rw [hag, hage])
    refine ⟨?_, ?_⟩
    · rw [hrec.1, hcs]
    · rw [hrec.2]; omega

theorem cleanup_sizeInv (m : Nat) (c : CacheState) (hinv : sizeInv c) :
    sizeInv (hashtable_cleanup m c) := by
  unfold sizeInv at hinv ⊢
  have hfe : (Finset.range 256).filter
        (fun i => ((hashtable_cleanup m c).table i).callsign ≠ "")
      = ((Finset.range 256).filter (fun i => (c.table i).callsign ≠ "")) \ evictSet m c := by
    ext i
    simp only [Finset.mem_filter, Finset.mem_sdiff, Finset.mem_range, evictSet]
    have hshow : (hashtable_cleanup m c).table i = cleanupEntry m (c.table i) := rfl
    rw [hshow]
    unfold cleanupEntry
    by_cases h1 : (c.table i).callsign = ""
    · rw [if_pos h1]
      simp [h1]
    · rw [if_neg h1]
      by_cases h2 : (c.table i).hash / 0x1000000 % 0x100 ≥ m
      · rw [if_pos h2]
        simp [h1, h2]
      · rw [if_neg h2]
        simp [h1, h2]
  have hsub : evictSet m c ⊆ (Finset.range 256).filter (fun i => (c.table i).callsign ≠ "") := by
    intro i hi
    simp only [evictSet, Finset.mem_filter, Finset.mem_range] at hi
    exact Finset.mem_filter.mpr ⟨Finset.mem_range.mpr hi.1, hi.2.1⟩
  have hcard := Finset.card_sdiff hsub
  have hle := Finset.card_le_card hsub
  show c.size - (evictSet m c).card = _
  rw [hfe, hcard]
  omega

theorem add_sizeInv (cs : String) (h : Nat) (c c2 : CacheState) (hcs : cs ≠ "")
    (hinv : sizeInv c) (hadd : hashtable_add cs h c = some c2) : sizeInv c2 := by
  unfold hashtable_add at hadd
  split at hadd
  · exact Option.noConfusion hadd
  · rename_i p hp
    obtain ⟨hp256, hpstop⟩ :=
      probe_some_spec (addStop c.table cs h) (by omega) 256 (h % 256) p hp
    split at hadd
    · rename_i hemp
      obtain rfl : (⟨Function.update c.table p ⟨h, strncpy11 cs⟩, c.size + 1⟩ : CacheState) = c2 :=
        Option.some.inj hadd
      unfold sizeInv at hinv ⊢
      have hfe : (Finset.range 256).filter
            (fun i => ((Function.update c.table p (⟨h, strncpy11 cs⟩ : CEntry)) i).callsign ≠ "")
          = insert p ((Finset.range 256).filter (fun i => (c.table i).callsign ≠ "")) := by
        ext i
        simp only [Finset.mem_insert, Finset.mem_filter, Finset.mem_range]
        by_cases hip : i = p
        · subst hip
          simp [Function.update_same, strncpy11_ne_empty cs hcs, hp256]
        · simp [Function.update_noteq hip, hip]
      have hnot : p ∉ (Finset.range 256).filter (fun i => (c.table i).callsign ≠ "") := by
        simp [Finset.mem_filter, hemp]
      show c.size + 1 = _
      rw [hfe, Finset.card_insert_of_not_mem hnot]
      omega
    · rename_i hemp
      obtain rfl : (⟨Function.update c.table p
            ⟨(c.table p).hash % 0x400000, (c.table p).callsign⟩, c.size⟩ : CacheState) = c2 :=
        Option.some.inj hadd
      unfold sizeInv at hinv ⊢
      have hfe : (Finset.range 256).filter
            (fun i => ((Function.update c.table p
              (⟨(c.table p).hash % 0x400000, (c.table p).callsign⟩ : CEntry)) i).callsign ≠ "")
          = (Finset.range 256).filter (fun i => (c.table i).callsign ≠ "") := by
        ext i
        simp only [Finset.mem_filter, Finset.mem_range]
        by_cases hip : i = p
        · subst hip
          simp [Function.update_same]
        · simp [Function.update_noteq hip]
      rw [hfe]
      exact hinv

theorem init_sizeInv : sizeInv hashtable_init := by
  unfold sizeInv
  decide

theorem runOps_sizeInv : ∀ (ops : List CacheOp) (c0 c : CacheState),
    (∀ cs h, CacheOp.save cs h ∈ ops → cs ≠ "") → sizeInv c0 →
    runOps ops c0 = some c → sizeInv c := by
  intro ops
  induction ops with
  | nil =>
    intro c0 c _ hinv h
    obtain rfl : c0 = c := Option.some.inj h
    exact hinv
  | cons op rest ih =>
    intro c0 c hsv hinv h
    simp only [runOps] at h
    cases hap : applyCacheOp op c0 with
    | none => rw [hap] at h; exact Option.noConfusion h
    | some c1 =>
      rw [hap] at h
      simp only [Option.some_bind] at h
      have hinv1 : sizeInv c1 := by
        cases op with
        | save cs hh =>
          exact add_sizeInv cs hh c0 c1
            (hsv cs hh (List.mem_cons_self _ _)) hinv hap
        | ageEvict mm =>
          obtain rfl : hashtable_cleanup mm c0 = c1 := Option.some.inj hap
          exact cleanup_sizeInv mm c0 hinv
        | reinit =>
          obtain rfl : hashtable_init = c1 := Option.some.inj hap
          exact init_sizeInv
      exact ih c1 c (fun cs hh hm => hsv cs hh (List.mem_cons_of_mem _ hm)) hinv1 h

theorem addStop_false_elim (t : Nat → CEntry) (cs : String) (h q : Nat)
    (hf : addStop t cs h q = false) :
    (t q).callsign ≠ "" ∧ ¬((t q).hash % 0x400000 = h ∧ (t q).callsign = cs) := by
  simp only [addStop, decide_eq_false_iff_not] at hf
  push_neg at hf
  exact ⟨hf.1, by
    intro hco
    exact (hf.2 hco.1) hco.2⟩

theorem lookupStop_h22_true (t : Nat → CEntry) (h q : Nat) (hh : h % 0x400000 = h)
    (hhash : (t q).hash % 0x400000 = h) :
    lookupStop t HashType.h22 h q = true := by
  simp only [lookupStop, hashShift, hashMaskP1, decide_eq_true_eq]
  right
  rw [hhash, hh]
  simp

theorem lookupStop_h22_false (t : Nat → CEntry) (h q : Nat) (hh : h % 0x400000 = h)
    (hocc : (t q).callsign ≠ "") (hhash : (t q).hash % 0x400000 ≠ h) :
    lookupStop t HashType.h22 h q = false := by
  simp only [lookupStop, hashShift, hashMaskP1, decide_eq_false_iff_not]
  push_neg
  refine ⟨hocc, ?_⟩
  rw [hh]
  simpa using hhash

/-- C1 (amended): graduated lookup consistency holds for the full (22-bit)
granularity: if `save(C, H)` stops after `k` probe steps (empty or matching
slot) and no slot on that probe prefix carries the same masked identity `H`,
then `lookup(full, H)` returns `C`.  (For the medium and short granularities
the lookup probes from the truncated hash value, whose start slot generally
differs from the save position, so the entry can be missed even without any
colliding entry -- see the counterexample.) -/
theorem c1_theorem (c : CacheState) (cs : String) (h k : Nat)
    (hcs : cs ≠ "") (hlen : cs.length ≤ 11) (hh : h % 0x400000 = h) (hk : k < 256)
    (hstop : addStop c.table cs h ((h % 256 + k) % 256) = true)
    (hpre : ∀ j, j < k → addStop c.table cs h ((h % 256 + j) % 256) = false)
    (hnocoll : ∀ j, j < k → (c.table ((h % 256 + j) % 256)).hash % 0x400000 ≠ h) :
    ∃ c2, hashtable_add cs h c = some c2 ∧
      hashtable_lookup HashType.h22 h c2 = LookupResult.found cs := by
  have hprobe : probe 256 (addStop c.table cs h) 256 (h % 256) = some ((h % 256 + k) % 256) :=
    probe_eq_first (addStop c.table cs h) k 256 (h % 256) hk hpre hstop
  set p := (h % 256 + k) % 256 with hpdef
  have hdist : ∀ j, j < k → (h % 256 + j) % 256 ≠ p := by
    intro j hj
    rw [hpdef]
    omega
  unfold hashtable_add
  rw [hprobe]
  simp only []
  by_cases hemp : (c.table p).callsign = ""
  · rw [if_pos hemp]
    refine ⟨_, rfl, ?_⟩
    have hlstop : lookupStop
        ((⟨Function.update c.table p ⟨h, strncpy11 cs⟩, c.size + 1⟩ : CacheState).table)
        HashType.h22 h ((h % 256 + k) % 256) = true := by
      rw [← hpdef]
      apply lookupStop_h22_true _ _ _ hh
      show ((Function.update c.table p (⟨h, strncpy11 cs⟩ : CEntry)) p).hash % 0x400000 = h
      rw [Function.update_same]
      exact hh
    have hlpre : ∀ j, j < k → lookupStop
        ((⟨Function.update c.table p ⟨h, strncpy11 cs⟩, c.size + 1⟩ : CacheState).table)
        HashType.h22 h ((h % 256 + j) % 256) = false := by
      intro j hj
      obtain ⟨hocc, _⟩ := addStop_false_elim c.table cs h _ (hpre j hj)
      apply lookupStop_h22_false _ _ _ hh
      · show ((Function.update c.table p (⟨h, strncpy11 cs⟩ : CEntry))
            ((h % 256 + j) % 256)).callsign ≠ ""
        rw [Function.update_noteq (hdist j hj)]
        exact hocc
      · show ((Function.update c.table p (⟨h, strncpy11 cs⟩ : CEntry))
            ((h % 256 + j) % 256)).hash % 0x400000 ≠ h
        rw [Function.update_noteq (hdist j hj)]
        exact hnocoll j hj
    have hlprobe := probe_eq_first
      (lookupStop ((⟨Function.update c.table p ⟨h, strncpy11 cs⟩, c.size + 1⟩ :
        CacheState).table) HashType.h22 h) k 256 (h % 256) hk hlpre hlstop
    unfold hashtable_lookup
    rw [hlprobe, ← hpdef]
    simp only []
    have hpe : ((Function.update c.table p (⟨h, strncpy11 cs⟩ : CEntry)) p).callsign
        = strncpy11 cs := by rw [Function.update_same]
    rw [if_neg (by
      show ((Function.update c.table p (⟨h, strncpy11 cs⟩ : CEntry)) p).callsign = "" → False
      rw [hpe]
      exact fun hco => strncpy11_ne_empty cs hcs hco)]
    show LookupResult.found ((Function.update c.table p (⟨h, strncpy11 cs⟩ : CEntry)) p).callsign
      = LookupResult.found cs
    rw [hpe, strncpy11_eq_self cs hlen]
  · rw [if_neg hemp]
    have hmatch : (c.table p).hash % 0x400000 = h ∧ (c.table p).callsign = cs := by
      simp only [addStop, decide_eq_true_eq, ← hpdef] at hstop
      rcases hstop with h1 | h2
      · exact absurd h1 hemp
      · exact h2
    refine ⟨_, rfl, ?_⟩
    have hlstop : lookupStop
        ((⟨Function.update c.table p ⟨(c.table p).hash % 0x400000, (c.table p).callsign⟩,
          c.size⟩ : CacheState).table) HashType.h22 h ((h % 256 + k) % 256) = true := by
      rw [← hpdef]
      apply lookupStop_h22_true _ _ _ hh
      show ((Function.update c.table p
          (⟨(c.table p).hash % 0x400000, (c.table p).callsign⟩ : CEntry)) p).hash % 0x400000 = h
      rw [Function.update_same]
      simp only []
      have := hmatch.1
      omega
    have hlpre : ∀ j, j < k → lookupStop
        ((⟨Function.update c.table p ⟨(c.table p).hash % 0x400000, (c.table p).callsign⟩,
          c.size⟩ : CacheState).table) HashType.h22 h ((h % 256 + j) % 256) = false := by
      intro j hj
      obtain ⟨hocc, _⟩ := addStop_false_elim c.table cs h _ (hpre j hj)
      apply lookupStop_h22_false _ _ _ hh
      · show ((Function.update c.table p
            (⟨(c.table p).hash % 0x400000, (c.table p).callsign⟩ : CEntry))
            ((h % 256 + j) % 256)).callsign ≠ ""
        rw [Function.update_noteq (hdist j hj)]
        exact hocc
      · show ((Function.update c.table p
            (⟨(c.table p).hash % 0x400000, (c.table p).callsign⟩ : CEntry))
            ((h % 256 + j) % 256)).hash % 0x400000 ≠ h
        rw [Function.update_noteq (hdist j hj)]
        exact hnocoll j hj
    have hlprobe := probe_eq_first
      (lookupStop ((⟨Function.update c.table p
        ⟨(c.table p).hash % 0x400000, (c.table p).callsign⟩, c.size⟩ :
        CacheState).table) HashType.h22 h) k 256 (h % 256) hk hlpre hlstop
    unfold hashtable_lookup
    rw [hlprobe, ← hpdef]
    simp only []
    have hpe : ((Function.update c.table p
        (⟨(c.table p).hash % 0x400000, (c.table p).callsign⟩ : CEntry)) p).callsign
        = (c.table p).callsign := by rw [Function.update_same]
    rw [if_neg (by
      show ((Function.update c.table p
          (⟨(c.table p).hash % 0x400000, (c.table p).callsign⟩ : CEntry)) p).callsign = "" → False
      rw [hpe]
      exact fun hco => hemp hco)]
    show LookupResult.found ((Function.update c.table p
        (⟨(c.table p).hash % 0x400000, (c.table p).callsign⟩ : CEntry)) p).callsign
      = LookupResult.found cs
    rw [hpe, hmatch.2]

theorem lor_step (t : DedupTable) (m : Msg) (k : Nat) (hk : k < 200)
    (hpre : ∀ j, j < k → dedupStop t m ((m.hash % 200 + j) % 200) = false)
    (hstop : t ((m.hash % 200 + k) % 200) = none) :
    lookupOrReserve t m
      = (some false, Function.update t ((m.hash % 200 + k) % 200) (some m)) := by
  have hstop2 : t ((m.hash + k) % 200) = none := by
    rw [← Nat.mod_add_mod]; exact hstop
  have hst : dedupStop t m ((m.hash % 200 + k) % 200) = true := by
    simp [dedupStop, hstop2]
  have hpr := probe_eq_first (dedupStop t m) k 200 (m.hash % 200) hk hpre hst
  unfold lookupOrReserve
  rw [hpr]
  simp [hstop2, Nat.mod_add_mod]

theorem lor_hit (t : DedupTable) (m : Msg) (k : Nat) (hk : k < 200)
    (hpre : ∀ j, j < k → dedupStop t m ((m.hash % 200 + j) % 200) = false)
    (hstop : t ((m.hash % 200 + k) % 200) = some m) :
    lookupOrReserve t m = (some true, t) := by
  have hstop2 : t ((m.hash + k) % 200) = some m := by
    rw [← Nat.mod_add_mod]; exact hstop
  have hst : dedupStop t m ((m.hash % 200 + k) % 200) = true := by
    simp [dedupStop, hstop2]
  have hpr := probe_eq_first (dedupStop t m) k 200 (m.hash % 200) hk hpre hst
  unfold lookupOrReserve
  rw [hpr]
  simp [hstop2, Nat.mod_add_mod]

theorem dedupOcc_empty : dedupOcc emptyDedup = 0 := by decide

theorem ft8_decode_valid (u : Unpacker) (maxR : Int) (cands : List Candidate)
    (cache : CacheState) (hpos : 0 < maxR) :
    ft8_decoder_decode true true maxR u cands cache
      = ⟨(decodeLoop u maxR cands emptyDedup cache []).1.length,
         (decodeLoop u maxR cands emptyDedup cache []).1,
         if (decodeLoop u maxR cands emptyDedup cache []).2.2
           then (decodeLoop u maxR cands emptyDedup cache []).2.1
           else hashtable_cleanup 10 (decodeLoop u maxR cands emptyDedup cache []).2.1,
         (decodeLoop u maxR cands emptyDedup cache []).2.2⟩ := by
  unfold ft8_decoder_decode
  rw [if_neg (by
    push_neg
    refine ⟨by simp, by simp, by omega⟩)]

/-! Claim theorems. -/


/-- C1 counterexample: save K1ABC with the 22-bit identity 1024 into a fresh
table.  The claim says `lookup(medium, (1024 >> 10) & 0xFFF)` then returns
K1ABC (there is no colliding entry anywhere), but the lookup probes from the
truncated value `1 % 256 = 1` while the entry sits at slot `1024 % 256 = 0`,
hits the empty slot 1 at once and reports not-found.  The full-granularity
lookup on the same state does return the callsign. -/
theorem c1_counterexample :
    (hashtable_add "K1ABC" 1024 hashtable_init).isSome = true ∧
    hashtable_lookup HashType.h12 (1024 / 2 ^ 10 % 0x1000) c1state = LookupResult.notFound ∧
    hashtable_lookup HashType.h22 1024 c1state = LookupResult.found "K1ABC" := by
  refine ⟨by decide, by decide, by decide⟩

/-- C1 witness: the amended theorem applied to a fresh table (probe stops
immediately, no colliding prefix). -/
theorem c1_witness :
    ∃ c2, hashtable_add "K1ABC" 1024 hashtable_init = some c2 ∧
      hashtable_lookup HashType.h22 1024 c2 = LookupResult.found "K1ABC" :=
  c1_theorem hashtable_init "K1ABC" 1024 0 (by decide) (by decide) (by decide) (by decide)
    (by decide) (fun j hj => absurd hj (Nat.not_lt_zero j))
    (fun j hj => absurd hj (Nat.not_lt_zero j))

/-- C2 (amended): per-slot aging and eviction behave as claimed (clear at
`age >= max_age`, else increment with the low 22 identity bits preserved),
but the timing differs from the claim: an entry with age 0 (just saved) still
has its age incremented by the `age_and_evict` of the same cycle, so it holds
age `k` after `k <= max_age` calls -- it is still present after exactly
`max_age` calls and only becomes absent after `max_age + 1` calls, and a
re-saved entry has age 1, not 0, immediately after the `age_and_evict` of
that cycle. -/
theorem c2_theorem (c : CacheState) (mx i : Nat) (hm : mx ≤ 255) :
    ((c.table i).callsign ≠ "" → (c.table i).hash / 0x1000000 % 0x100 ≥ mx →
      (hashtable_cleanup mx c).table i = ⟨0, ""⟩) ∧
    ((c.table i).callsign ≠ "" → (c.table i).hash / 0x1000000 % 0x100 < mx →
      ((hashtable_cleanup mx c).table i).callsign = (c.table i).callsign ∧
      ((hashtable_cleanup mx c).table i).hash / 0x1000000 % 0x100
        = (c.table i).hash / 0x1000000 % 0x100 + 1 ∧
      ((hashtable_cleanup mx c).table i).hash % 0x400000 = (c.table i).hash % 0x400000) ∧
    ((c.table i).callsign ≠ "" → (c.table i).hash / 0x1000000 % 0x100 = 0 →
      ∀ k, k ≤ mx →
        (((hashtable_cleanup mx)^[k] c).table i).callsign = (c.table i).callsign ∧
        (((hashtable_cleanup mx)^[k] c).table i).hash / 0x1000000 % 0x100 = k) ∧
    ((c.table i).callsign ≠ "" → (c.table i).hash / 0x1000000 % 0x100 = 0 →
      (((hashtable_cleanup mx)^[mx + 1] c).table i).callsign = "") := by
  refine ⟨?_, ?_, ?_, ?_⟩
  · intro hocc hage
    exact cleanup_slot_evict mx c i hocc hage
  · intro hocc hage
    exact cleanup_slot_age mx c i hocc hage hm
  · intro hocc hage k hk
    have hit := cleanup_iter_slot mx hm k c i 0 (by omega) hocc hage
    refine ⟨hit.1, ?_⟩
    have h2 := hit.2
    omega
  · intro hocc hage
    rw [Function.iterate_succ_apply']
    have hit := cleanup_iter_slot mx hm mx c i 0 (by omega) hocc hage
    have hocc2 : (((hashtable_cleanup mx)^[mx] c).table i).callsign ≠ "" := by
      rw [hit.1]; exact hocc
    have hage2 : (((hashtable_cleanup mx)^[mx] c).table i).hash / 0x1000000 % 0x100 ≥ mx := by
      have h2 := hit.2
      omega
    have hev := cleanup_slot_evict mx ((hashtable_cleanup mx)^[mx] c) i hocc2 hage2
    rw [hev]

/-- C2 counterexample: save one callsign (age 0) into a fresh table and run
`age_and_evict(10)`.  The claim says a re-saved entry has age 0 immediately
after the `age_and_evict` of that cycle; the code gives it age 1.  The claim
also says the entry is absent after exactly 10 consecutive `age_and_evict`
calls without re-save; after 10 calls it is still present (with age 10). -/
theorem c2_counterexample :
    (hashtable_add "K1ABC" 1024 hashtable_init).isSome = true ∧
    ((hashtable_cleanup 10 c1state).table 0).hash / 0x1000000 % 0x100 = 1 ∧
    (((hashtable_cleanup 10)^[10] c1state).table 0).callsign = "K1ABC" := by
  refine ⟨by decide, by decide, by decide⟩

/-- C2 witness: the amended theorem at the concrete saved entry: after
`max_age + 1 = 11` aging calls the entry is gone. -/
theorem c2_witness :
    (((hashtable_cleanup 10)^[10 + 1] c1state).table 0).callsign = "" :=
  (c2_theorem c1state 10 0 (by decide)).2.2.2 (by decide) (by decide)

/-- C3: within one cycle, the dedup table reports a duplicate only when a
stored entry has the same identity hash and the same payload bytes; two
distinct payloads with the same identity hash are both retained in distinct
slots, and re-presenting the first pair afterwards reports a duplicate. -/
theorem c3_theorem (h : Nat) (p1 p2 : List Nat) (hne : p1 ≠ p2) :
    (∀ (t : DedupTable) (m : Msg) (t2 : DedupTable),
        lookupOrReserve t m = (some true, t2) → ∃ q, q < 200 ∧ t q = some m) ∧
    (∃ t1 t2 q1 q2,
      lookupOrReserve emptyDedup ⟨h, p1⟩ = (some false, t1) ∧
      lookupOrReserve t1 ⟨h, p2⟩ = (some false, t2) ∧
      (lookupOrReserve t2 ⟨h, p1⟩).1 = some true ∧
      q1 ≠ q2 ∧ t2 q1 = some ⟨h, p1⟩ ∧ t2 q2 = some ⟨h, p2⟩) := by
  constructor
  · intro t m t2 hl
    obtain ⟨⟨q, hq, hqm⟩, _⟩ := lor_dup t m t2 hl
    exact ⟨q, hq, hqm⟩
  · have hmne : (⟨h, p1⟩ : Msg) ≠ ⟨h, p2⟩ := by
      intro hco
      injection hco with h1 h2
      exact hne h2
    have hq12 : (h % 200 + 1) % 200 ≠ (h % 200 + 0) % 200 := by omega
    have hl1 : lookupOrReserve emptyDedup ⟨h, p1⟩
        = (some false, Function.update emptyDedup ((h % 200 + 0) % 200) (some ⟨h, p1⟩)) :=
      lor_step emptyDedup ⟨h, p1⟩ 0 (by omega)
        (fun j hj => absurd hj (Nat.not_lt_zero j)) rfl
    set t1 : DedupTable :=
      Function.update emptyDedup ((h % 200 + 0) % 200) (some ⟨h, p1⟩) with ht1
    have ht1at0 : t1 ((h % 200 + 0) % 200) = some ⟨h, p1⟩ := by
      rw [ht1, Function.update_same]
    have ht1at1 : t1 ((h % 200 + 1) % 200) = none := by
      rw [ht1, Function.update_noteq hq12]
      rfl
    have hl2 : lookupOrReserve t1 ⟨h, p2⟩
        = (some false, Function.update t1 ((h % 200 + 1) % 200) (some ⟨h, p2⟩)) :=
      lor_step t1 ⟨h, p2⟩ 1 (by omega)
        (by
          intro j hj
          have hj0 : j = 0 := by omega
          subst hj0
          show dedupStop t1 ⟨h, p2⟩ ((h % 200 + 0) % 200) = false
          simp only [dedupStop, ht1at0, decide_eq_false_iff_not]
          push_neg
          refine ⟨by simp, ?_⟩
          intro hco
          exact hmne (Option.some.inj hco))
        ht1at1
    set t2 : DedupTable :=
      Function.update t1 ((h % 200 + 1) % 200) (some ⟨h, p2⟩) with ht2
    have ht2at0 : t2 ((h % 200 + 0) % 200) = some ⟨h, p1⟩ := by
      rw [ht2, Function.update_noteq (by omega)]
      exact ht1at0
    have ht2at1 : t2 ((h % 200 + 1) % 200) = some ⟨h, p2⟩ := by
      rw [ht2, Function.update_same]
    have hl3 : lookupOrReserve t2 ⟨h, p1⟩ = (some true, t2) :=
      lor_hit t2 ⟨h, p1⟩ 0 (by omega) (fun j hj => absurd hj (Nat.not_lt_zero j)) ht2at0
    exact ⟨t1, t2, (h % 200 + 0) % 200, (h % 200 + 1) % 200,
      hl1, hl2, by rw [hl3], by omega, ht2at0, ht2at1⟩

/-- C3 witness: the theorem at hash 7 with distinct payloads. -/
theorem c3_witness :
    ([0] : List Nat) ≠ [1] ∧
    (∃ t1 t2 q1 q2,
      lookupOrReserve emptyDedup ⟨7, [0]⟩ = (some false, t1) ∧
      lookupOrReserve t1 ⟨7, [1]⟩ = (some false, t2) ∧
      (lookupOrReserve t2 ⟨7, [0]⟩).1 = some true ∧
      q1 ≠ q2 ∧ t2 q1 = some ⟨7, [0]⟩ ∧ t2 q2 = some ⟨7, [1]⟩) :=
  ⟨by decide, (c3_theorem 7 [0] [1] (by decide)).2⟩

/-- C4: on a valid call, decode returns exactly the number of results it
wrote and never more than `max_results`; when every candidate (at most the
search cap of 200) decodes to a distinct message, the output equals the
dedup-free processing of exactly the first `max_results` candidates in the
order the candidate search returned them, and the returned count is
`min max_results (number of candidates)`. -/
theorem c4_theorem (u : Unpacker) (cands : List Candidate) (cache : CacheState)
    (maxR : Int) (hpos : 0 < maxR) :
    ((ft8_decoder_decode true true maxR u cands cache).count
        = (ft8_decoder_decode true true maxR u cands cache).results.length ∧
      (ft8_decoder_decode true true maxR u cands cache).count ≤ maxR.toNat) ∧
    (cands.length ≤ 200 →
      (∀ c ∈ cands, c.decodeResult.isSome = true) →
      (cands.filterMap Candidate.decodeResult).Nodup →
      (ft8_decoder_decode true true maxR u cands cache).results
          = (plainRun u (cands.take maxR.toNat) cache).1 ∧
      (ft8_decoder_decode true true maxR u cands cache).count
          = min maxR.toNat cands.length) := by
  rw [ft8_decode_valid u maxR cands cache hpos]
  constructor
  · exact ⟨rfl, decodeLoop_len_le u maxR cands emptyDedup cache [] (Nat.zero_le _)⟩
  · intro hlen hall hnd
    have hloop := decodeLoop_unique_eq u maxR cands emptyDedup cache []
      (by rw [dedupOcc_empty]; omega) hall hnd
      (by intro m _ i _; simp [emptyDedup])
    rw [List.length_nil, Nat.sub_zero] at hloop
    rw [hloop]
    simp only [List.nil_append]
    refine ⟨trivial, ?_⟩
    rw [plainRun_fst_length u (cands.take maxR.toNat) cache
      (fun c2 hc2 => hall c2 (List.take_subset _ _ hc2))]
    exact List.length_take maxR.toNat cands

/-- C4 witness: `max_results = 2` on three distinct successful candidates
yields exactly `min 2 3 = 2` results. -/
theorem c4_witness :
    (ft8_decoder_decode true true 2 u0 cands4 hashtable_init).count
      = min (Int.toNat 2) cands4.length :=
  ((c4_theorem u0 cands4 hashtable_init 2 (by decide)).2
    (by decide) (by decide) (by decide)).2

/-- C5: the table state reached by 256 saves of distinct (hash, callsign)
pairs is completely full, and a further save of a pair matching no slot has
no stopping slot anywhere in its cyclic probe sequence: the C `while` loop in
`hashtable_add` never terminates, contradicting the documented
stop-after-exhausting-and-drop behaviour. -/
theorem c5_theorem :
    (runOps fillOps hashtable_init).isSome = true ∧
    (∀ i, i < 256 → (fullCache.table i).callsign ≠ "") ∧
    (hashtable_add "Y" 256 fullCache).isNone = true := by
  refine ⟨by decide, by decide, by decide⟩

/-- C6 counterexample: on a fully occupied dedup table with no entry matching
the presented message, the probe has no stopping slot anywhere in its cyclic
sequence -- the C `do..while` would never terminate, rather than treating the
exhausted table as not-found-and-drop as the claim states. -/
theorem c6_counterexample :
    (∀ i, i < 200 → (fullDedup i).isSome = true) ∧
    (lookupOrReserve fullDedup ⟨5, [1]⟩).1 = none := by
  refine ⟨by decide, by decide⟩

/-- C6 (amended): the dedup probe terminates for every table state reachable
inside `ft8_decoder_decode`: the candidate search returns at most 200
candidates, each loop iteration inserts at most one message, so at every
probe at most 199 slots are occupied and the probe finds an empty or matching
slot within 200 steps.  The code has no explicit capacity bound, and on a
fully occupied table without a match (unreachable in decode) it would loop
forever. -/
theorem c6_theorem (u : Unpacker) (cands : List Candidate) (cache : CacheState)
    (maxR : Int) (sv ov : Bool) (hlen : cands.length ≤ 200) :
    (ft8_decoder_decode sv ov maxR u cands cache).diverged = false := by
  unfold ft8_decoder_decode
  by_cases hg : sv = false ∨ ov = false ∨ maxR ≤ 0
  · rw [if_pos hg]
  · rw [if_neg hg]
    exact decodeLoop_no_div u maxR cands emptyDedup cache []
      (by rw [dedupOcc_empty]; omega)

/-- C6 witness: a one-candidate cycle terminates. -/
theorem c6_witness :
    (ft8_decoder_decode true true 4 u0 [⟨some ⟨1, [1]⟩, 2⟩] hashtable_init).diverged
      = false :=
  c6_theorem u0 [⟨some ⟨1, [1]⟩, 2⟩] hashtable_init 4 true true (by decide)

/-- C7: when unpack fails with code `rc ≠ 0` on a unique decoded message, the
candidate is not dropped: a result is still appended whose text is the error
string containing the decimal code, and it counts toward the returned count
and the `max_results` budget. -/
theorem c7_theorem (u : Unpacker) (m : Msg) (sc : Int) (cache : CacheState)
    (maxR : Int) (rc : Nat) (txt : String) (cache2 : CacheState)
    (hpos : 0 < maxR) (hu : u m cache = (rc, txt, cache2)) (hrc : rc ≠ 0) :
    (ft8_decoder_decode true true maxR u [⟨some m, sc⟩] cache).results
        = [⟨errorText rc, sc⟩] ∧
    (ft8_decoder_decode true true maxR u [⟨some m, sc⟩] cache).count = 1 ∧
    ∃ pre post, errorText rc = pre ++ toString rc ++ post := by
  have hloop : decodeLoop u maxR [⟨some m, sc⟩] emptyDedup cache []
      = ([⟨errorText rc, sc⟩], cache2, false) := by
    have hbudget : ((([] : List DecodeResult).length : Int) < maxR) := by simpa using hpos
    simp only [decodeLoop]
    rw [if_pos hbudget]
    show (match lookupOrReserve emptyDedup m with
      | (none, _) => (([] : List DecodeResult), cache, true)
      | (some true, _) => decodeLoop u maxR [] emptyDedup cache []
      | (some false, t2) =>
        decodeLoop u maxR [] t2 (u m cache).2.2
          ([] ++ [(⟨if (u m cache).1 ≠ 0 then errorText (u m cache).1 else (u m cache).2.1,
            sc⟩ : DecodeResult)]))
      = ([(⟨errorText rc, sc⟩ : DecodeResult)], cache2, false)
    rw [lor_step emptyDedup m 0 (by omega) (fun j hj => absurd hj (Nat.not_lt_zero j)) rfl]
    show decodeLoop u maxR []
        (Function.update emptyDedup ((m.hash % 200 + 0) % 200) (some m)) (u m cache).2.2
        ([] ++ [(⟨if (u m cache).1 ≠ 0 then errorText (u m cache).1 else (u m cache).2.1,
          sc⟩ : DecodeResult)])
      = ([(⟨errorText rc, sc⟩ : DecodeResult)], cache2, false)
    rw [hu]
    show (([(⟨if rc ≠ 0 then errorText rc else txt, sc⟩ : DecodeResult)] : List DecodeResult),
        cache2, false)
      = ([(⟨errorText rc, sc⟩ : DecodeResult)], cache2, false)
    rw [if_pos hrc]
  rw [ft8_decode_valid u maxR [⟨some m, sc⟩] cache hpos, hloop]
  exact ⟨rfl, rfl, "Error [", "] while unpacking!", rfl⟩

/-- C7 witness: a forced unpack failure with code 3 yields one result whose
text contains the literal "3". -/
theorem c7_witness :
    (ft8_decoder_decode true true 5 (fun _ cache => (3, "", cache)) [⟨some ⟨9, [2]⟩, 4⟩]
        hashtable_init).results = [⟨errorText 3, 4⟩] ∧
    ∃ pre post, errorText 3 = pre ++ toString 3 ++ post :=
  ⟨(c7_theorem (fun _ cache => (3, "", cache)) ⟨9, [2]⟩ 4 hashtable_init 5 3 ""
      hashtable_init (by decide) rfl (by decide)).1,
   (c7_theorem (fun _ cache => (3, "", cache)) ⟨9, [2]⟩ 4 hashtable_init 5 3 ""
      hashtable_init (by decide) rfl (by decide)).2.2⟩

/-- C8: a null session, null output buffer, or non-positive `max_results`
returns 0 results and leaves the callsign cache (no aging pass runs), the
output and the session state untouched. -/
theorem c8_theorem (u : Unpacker) (cands : List Candidate) (cache : CacheState)
    (maxR : Int) (sv ov : Bool) (hg : sv = false ∨ ov = false ∨ maxR ≤ 0) :
    ft8_decoder_decode sv ov maxR u cands cache = ⟨0, [], cache, false⟩ := by
  unfold ft8_decoder_decode
  rw [if_pos hg]

/-- C8 witness: `max_results = 0` on a valid session is a no-op. -/
theorem c8_witness :
    ft8_decoder_decode true true 0 u0 [] hashtable_init
      = ⟨0, [], hashtable_init, false⟩ :=
  c8_theorem u0 [] hashtable_init 0 true true (Or.inr (Or.inr (by omega)))

/-- C9 (amended): after any terminating sequence of init, save (of non-empty
callsigns) and age_and_evict operations, the live counter equals the number
of occupied slots.  The at-most-one-slot-per-pair half of the claim is false
once eviction has punched a hole into a probe chain -- see the
counterexample. -/
theorem c9_theorem (ops : List CacheOp) (c : CacheState)
    (hsv : ∀ cs h, CacheOp.save cs h ∈ ops → cs ≠ "")
    (hrun : runOps ops hashtable_init = some c) : sizeInv c :=
  runOps_sizeInv ops hashtable_init c hsv init_sizeInv hrun

/-- C9 counterexample: a reachable state with two distinct live slots holding
the same (identity-hash, callsign) pair (0, "B"). -/
theorem c9_counterexample :
    (runOps c9ops hashtable_init).isSome = true ∧
    (c9state.table 0).callsign = "B" ∧ (c9state.table 1).callsign = "B" ∧
    (c9state.table 0).hash % 0x400000 = 0 ∧ (c9state.table 1).hash % 0x400000 = 0 := by
  refine ⟨by decide, by decide, by decide, by decide, by decide⟩

/-- C9 witness: the amended invariant holds after a save and an eviction
pass. -/
theorem c9_witness : sizeInv ((runOps c9wops hashtable_init).getD hashtable_init) :=
  c9_theorem c9wops ((runOps c9wops hashtable_init).getD hashtable_init)
    (by
      intro cs h hm
      simp only [c9wops, List.mem_cons, List.not_mem_nil, or_false] at hm
      rcases hm with hm | hm
      · cases hm
        decide
      · cases hm)
    rfl

/-- C10: `reset` clears only the accumulation buffer and leaves every slot of
the callsign cache and its live count unchanged, while creating a new session
reinitialises the one process-wide cache to empty regardless of what any
existing session had stored in it. -/
theorem c10_theorem :
    (∀ (s : Session) (cache : CacheState),
      (ft8_decoder_reset s cache).2 = cache ∧
      (ft8_decoder_reset s cache).1 = ⟨0, s.maxBlocks⟩) ∧
    (∀ (mb : Nat) (prior : CacheState),
      (∀ i, ((ft8_decoder_create mb prior).2.table i) = ⟨0, ""⟩) ∧
      (ft8_decoder_create mb prior).2.size = 0) :=
  ⟨fun _ _ => ⟨rfl, rfl⟩, fun _ _ => ⟨fun _ => rfl, rfl⟩⟩
